import Mathlib

/-!
Shallow embedding of the two scripts of this repository,
`scripts/parse_sciencedirect.py` (Block Extractor) and `scripts/make_abc.py`
(Cross-Source Merger), together with theorems settling the specification
claims about them.

Python strings are modelled as `List Char`, with ASCII semantics for the
character classes the scripts use (regex `\d`, `\w`, `\s`, `str.lower`,
`str.strip`).  Cells of a pandas DataFrame are `Option (List Char)`, with
`none` standing for a missing value (NaN).
-/

/-- Coerce a Lean string literal to the `List Char` model of Python strings. -/
def pys (s : String) : List Char := s.data

/-- Python whitespace class `\s` (ASCII part): space, tab, LF, CR, VT, FF. -/
def isPySpace (c : Char) : Bool :=
  c = ' ' || c = '\t' || c = '\n' || c = '\r' || c = '\x0b' || c = '\x0c'

/-- Python regex word class `\w` (ASCII part): alphanumeric or underscore. -/
def isWordChar (c : Char) : Bool := c.isAlphanum || c = '_'

/-- Python `str.lower` on one character (ASCII part). -/
def pyToLower (c : Char) : Char :=
  if 'A' ≤ c ∧ c ≤ 'Z' then Char.ofNat (c.toNat + 32) else c

/-- Python `str.lower` on a string. -/
def pyLower (l : List Char) : List Char := l.map pyToLower

/-- Strip characters satisfying `p` from the left end (`str.lstrip`). -/
def lstripP (p : Char → Bool) (l : List Char) : List Char := l.dropWhile p

/-- Strip characters satisfying `p` from the right end (`str.rstrip`). -/
def rstripP (p : Char → Bool) (l : List Char) : List Char :=
  (l.reverse.dropWhile p).reverse

/-- Strip characters satisfying `p` from both ends (`str.strip`). -/
def stripP (p : Char → Bool) (l : List Char) : List Char := rstripP p (lstripP p l)

/-- Python `str.strip()` (whitespace). -/
def stripWs : List Char → List Char := stripP isPySpace

/-- Python `str.strip(".")`. -/
def stripDots : List Char → List Char := stripP (fun c => c = '.')

/-- Characters of the trailing-punctuation set `".,;)"` used by both scripts. -/
def isPunc (c : Char) : Bool := c = '.' || c = ',' || c = ';' || c = ')'

/-- Python `str.rstrip(".,;)")`. -/
def rstripPunc : List Char → List Char := rstripP isPunc

/-- Fuel-indexed worker for `removeAll`; with fuel at least the length of
the list it computes Python `str.replace(pat, "")`. -/
def removeAllF (pat : List Char) : Nat → List Char → List Char
  | 0, l => l
  | _ + 1, [] => []
  | fuel + 1, c :: rest =>
    if pat.isPrefixOf (c :: rest) ∧ pat ≠ [] then
      removeAllF pat fuel (rest.drop (pat.length - 1))
    else
      c :: removeAllF pat fuel rest

/-- Python `str.replace(pat, "")`: delete every non-overlapping occurrence of
`pat`, scanning left to right. -/
def removeAll (pat l : List Char) : List Char := removeAllF pat l.length l

/-- Worker for `collapseWs`: `prevSpace` records whether the previous
character belonged to a whitespace run already replaced by one space. -/
def collapseWsAux (prevSpace : Bool) : List Char → List Char
  | [] => []
  | c :: rest =>
    if isPySpace c then
      if prevSpace then collapseWsAux true rest
      else ' ' :: collapseWsAux true rest
    else c :: collapseWsAux false rest

/-- Python `re.sub(r"\s+", " ", s)`: replace each maximal whitespace run by a
single space. -/
def collapseWs (l : List Char) : List Char := collapseWsAux false l

/-- Does `pat` occur as a contiguous substring of `l`? -/
def containsSub (pat : List Char) : List Char → Bool
  | [] => pat.isPrefixOf ([] : List Char)
  | c :: rest => pat.isPrefixOf (c :: rest) || containsSub pat rest

/-- Python `"sep".join`: interleave `sep` between the elements of `ls`. -/
def joinSep (sep : List Char) : List (List Char) → List Char
  | [] => []
  | [l] => l
  | l :: l2 :: rest => l ++ sep ++ joinSep sep (l2 :: rest)

/-- Lexicographic comparison of Python strings (`<=` on `str`). -/
def pyLeB : List Char → List Char → Bool
  | [], _ => true
  | _ :: _, [] => false
  | a :: as, b :: bs => if a < b then true else if a = b then pyLeB as bs else false

/-- Propositional form of `pyLeB`, used with Mathlib's insertion sort. -/
def pyle (a b : List Char) : Prop := pyLeB a b = true

instance : DecidableRel pyle := fun a b => by
  unfold pyle
  infer_instance

/-- Worker for `dedupFirst`: drop elements already seen. -/
def dedupSeen (seen : List (List Char)) : List (List Char) → List (List Char)
  | [] => []
  | x :: xs =>
    if x ∈ seen then dedupSeen seen xs
    else x :: dedupSeen (x :: seen) xs

/-- Keep the first occurrence of each distinct element, preserving order
(the semantics of building a set while scanning left to right). -/
def dedupFirst (l : List (List Char)) : List (List Char) := dedupSeen [] l

/-- Python `sorted(set(xs))` for a list of strings: the sorted list of the
distinct elements. -/
def sortedSet (xs : List (List Char)) : List (List Char) :=
  List.insertionSort pyle (dedupFirst xs)

/-!
Regex models.  `DOI_PAT = (10\.\d{4,9}/\S+)` (the IGNORECASE flag is
irrelevant: the pattern contains no cased character), `URL_PAT =
(https?://\S+)`, `YEAR_PAT = \b(20\d{2}|19\d{2})\b`.  Each `search` returns
the leftmost match; greediness of `\d{4,9}` and `\S+` is resolved as in the
backtracking engine: since the quantified classes cannot match the literal
that follows them, the digit run taken is exactly the maximal one and the
`\S+` run is maximal.
-/

/-- Match of `10\.\d{4,9}/\S+` anchored at the head of the list; returns the
matched prefix. -/
def doiMatchAt : List Char → Option (List Char)
  | '1' :: '0' :: '.' :: rest =>
    let ds := rest.takeWhile Char.isDigit
    match rest.dropWhile Char.isDigit with
    | '/' :: tail =>
      let run := tail.takeWhile (fun c => !(isPySpace c))
      if 4 ≤ ds.length ∧ ds.length ≤ 9 ∧ run ≠ [] then
        some ('1' :: '0' :: '.' :: (ds ++ '/' :: run))
      else none
    | _ => none
  | _ => none

/-- Python `DOI_PAT.search`: leftmost match of `10\.\d{4,9}/\S+`. -/
def doiSearch : List Char → Option (List Char)
  | [] => none
  | c :: rest =>
    match doiMatchAt (c :: rest) with
    | some m => some m
    | none => doiSearch rest

/-- Match of `https?://\S+` anchored at the head of the list. -/
def urlMatchAt (l : List Char) : Option (List Char) :=
  if (pys "https://").isPrefixOf l then
    let run := (l.drop 8).takeWhile (fun c => !(isPySpace c))
    if run ≠ [] then some (pys "https://" ++ run) else none
  else if (pys "http://").isPrefixOf l then
    let run := (l.drop 7).takeWhile (fun c => !(isPySpace c))
    if run ≠ [] then some (pys "http://" ++ run) else none
  else none

/-- Python `URL_PAT.search`: leftmost match of `https?://\S+`. -/
def urlSearch : List Char → Option (List Char)
  | [] => none
  | c :: rest =>
    match urlMatchAt (c :: rest) with
    | some m => some m
    | none => urlSearch rest

/-- Word boundary on the left of the current position: the previous
character, if any, is not a word character. -/
def lBoundary : Option Char → Bool
  | none => true
  | some p => !(isWordChar p)

/-- Word boundary between the match and the remainder of the string. -/
def rBoundary : List Char → Bool
  | [] => true
  | e :: _ => !(isWordChar e)

/-- Match of `\b(20\d{2}|19\d{2})\b` anchored at the head of the list;
`prev` is the character immediately before the current position (`none` at
the start of the string), needed for the left word boundary. -/
def yearMatchAt (prev : Option Char) : List Char → Option (List Char)
  | a :: b :: c :: d :: rest =>
    if ((a = '2' && b = '0') || (a = '1' && b = '9')) && c.isDigit && d.isDigit &&
        lBoundary prev && rBoundary rest then
      some [a, b, c, d]
    else none
  | _ => none

/-- Python `YEAR_PAT.search`: leftmost match of `\b(20\d{2}|19\d{2})\b`. -/
def yearSearch (prev : Option Char) : List Char → Option (List Char)
  | [] => none
  | c :: rest =>
    match yearMatchAt prev (c :: rest) with
    | some m => some m
    | none => yearSearch (some c) rest

/-!
Embedding of `scripts/parse_sciencedirect.py` (Block Extractor).
The document is taken as its list of raw lines (`text.splitlines()` is the
collaborator boundary); the function strips each line itself.
-/

/-- Embedding of the extractor's `_norm_doi`. -/
def _norm_doi (x : List Char) : List Char :=
  let s1 := stripWs x
  let s2 := removeAll (pys "http://doi.org/") (removeAll (pys "https://doi.org/") s1)
  let s3 := pyLower (stripDots (stripWs s2))
  match doiSearch s3 with
  | some m => rstripPunc m
  | none => []

/-- Record emitted by the extractor (one row of its DataFrame). -/
structure ExtractedRecord where
  source : List Char
  title : Option (List Char)
  authors : Option (List Char)
  year : Option (List Char)
  doi : List Char
  url : Option (List Char)
deriving DecidableEq, Repr

/-- Candidate indices of the title lookback, `range(i-1, max(-1, i-4), -1)`:
the list `[i-1, i-2, i-3]` clipped at index 0. -/
def lookbackIdxs (i : Nat) : List Nat :=
  (List.range 3).filterMap (fun d => if d + 1 ≤ i then some (i - (d + 1)) else none)

/-- Does a stripped line qualify as a title: non-empty and, lowercased, not
starting with `http://`, `https://` or `doi:`. -/
def titleOk (l : List Char) : Bool :=
  l ≠ [] && !((pys "http://").isPrefixOf (pyLower l)
      || (pys "https://").isPrefixOf (pyLower l)
      || (pys "doi:").isPrefixOf (pyLower l))

/-- Title recovery at anchor index `i`: first qualifying line among
`i-1, i-2, i-3` (nearest first). -/
def titleLookback (lines : List (List Char)) (i : Nat) : Option (List Char) :=
  (lookbackIdxs i).findSome? (fun j =>
    let l := lines.getD j []
    if titleOk l then some l else none)

/-- Year window at anchor index `i`: `" ".join(lines[max(0, i-5) : i+6])`. -/
def yearWindow (lines : List (List Char)) (i : Nat) : List Char :=
  joinSep (pys " ") ((lines.drop (i - 5)).take (i + 6 - (i - 5)))

/-- URL recovery at anchor index `i`: search the anchor line, else the
immediately preceding line; strip trailing punctuation from a match. -/
def urlRecover (lines : List (List Char)) (i : Nat) (ln : List Char) : Option (List Char) :=
  match urlSearch ln with
  | some m => some (rstripPunc m)
  | none =>
    if i > 0 then (urlSearch (lines.getD (i - 1) [])).map rstripPunc
    else none

/-- Record emitted for line `ln` at index `i`, if the line is an anchor
(contains a DOI-pattern match). -/
def emitAt (lines : List (List Char)) (i : Nat) (ln : List Char) : Option ExtractedRecord :=
  match doiSearch ln with
  | none => none
  | some m =>
    some { source := pys "ScienceDirect"
           title := titleLookback lines i
           authors := none
           year := yearSearch none (yearWindow lines i)
           doi := rstripPunc m
           url := urlRecover lines i ln }

/-- Records emitted by the per-line scan, before the dedup post-pass. -/
def rawRecords (input : List (List Char)) : List ExtractedRecord :=
  let lines := input.map stripWs
  lines.enum.filterMap (fun p => emitAt lines p.1 p.2)

/-- Embedding of `df.drop_duplicates(subset=["doi_norm"])`: keep the first
record for each distinct value of `_norm_doi` of the `doi` field. -/
def dropDupDoi (seen : List (List Char)) : List ExtractedRecord → List ExtractedRecord
  | [] => []
  | r :: rs =>
    if _norm_doi r.doi ∈ seen then dropDupDoi seen rs
    else r :: dropDupDoi (_norm_doi r.doi :: seen) rs

/-- Embedding of `parse_sciencedirect_txt`, taking the document as its list
of lines. -/
def parse_sciencedirect_txt (input : List (List Char)) : List ExtractedRecord :=
  dropDupDoi [] (rawRecords input)

/-!
Embedding of `scripts/make_abc.py` (Cross-Source Merger).

A pandas DataFrame read from CSV is modelled as a header (column names) plus
rows of cells; a cell is `none` for a missing value (NaN).  The pipeline is
modelled record-wise; pandas sorts the groups by key in `groupby`, while the
model lists merged records in first-occurrence order of their keys — no
claim below concerns the output row order.
-/

/-- Model of a tabular input collection. -/
structure Frame where
  header : List (List Char)
  rows : List (List (Option (List Char)))
deriving DecidableEq, Repr

/-- Column lookup by exact name (`col in df.columns`, then `df[col]`). -/
def getCol (f : Frame) (name : List Char) : Option (List (Option (List Char))) :=
  if name ∈ f.header then
    some (f.rows.map (fun r => r.getD (f.header.indexOf name) none))
  else none

/-- Positional first column (`df.iloc[:, 0]`). -/
def firstCol (f : Frame) : List (Option (List Char)) :=
  f.rows.map (fun r => r.getD 0 none)

/-- First alias column present, in the fixed priority order. -/
def firstAlias (f : Frame) : List (List Char) → Option (List (Option (List Char)))
  | [] => none
  | n :: rest =>
    match getCol f n with
    | some c => some c
    | none => firstAlias f rest

/-- Alias priority list for the DOI field. -/
def doiAliases : List (List Char) :=
  [pys "DOI", pys "doi", pys "DOI Link", pys "Link", pys "DOI URL",
   pys "Article DOI", pys "url", pys "URL"]

/-- Alias priority list for the URL field. -/
def urlAliases : List (List Char) :=
  [pys "url", pys "URL", pys "PDF Link", pys "Link"]

/-- Alias priority list for the Authors field. -/
def authorsAliases : List (List Char) :=
  [pys "Authors", pys "authors", pys "Authors Full Names", pys "Author(s)"]

/-- Alias priority list for the Year field. -/
def yearAliases : List (List Char) :=
  [pys "Publication Year", pys "Year", pys "year"]

/-- Embedding of the merger's `norm_doi`. -/
def norm_doi (x : List Char) : List Char :=
  let s1 := pyLower (stripWs x)
  let s2 := removeAll (pys "http://doi.org/") (removeAll (pys "https://doi.org/") s1)
  let s3 := stripDots (stripWs s2)
  match doiSearch s3 with
  | some m => rstripPunc m
  | none => []

/-- Embedding of the merger's `norm_title`. -/
def norm_title (x : List Char) : List Char :=
  let s1 := pyLower (stripWs x)
  let s2 := s1.map (fun c => if isWordChar c || isPySpace c then c else ' ')
  stripWs (collapseWs s2)

/-- Application of `norm_doi` to a cell: the `isinstance(s, str)` guard sends
a missing value to the empty string. -/
def norm_doi_cell : Option (List Char) → List Char
  | none => []
  | some s => norm_doi s

/-- Application of `norm_title` to a cell. -/
def norm_title_cell : Option (List Char) → List Char
  | none => []
  | some s => norm_title s

/-- One standardized record (a row of the output of `standardize`). -/
structure StdRecord where
  Title : Option (List Char)
  DOI : Option (List Char)
  URL : Option (List Char)
  Authors : Option (List Char)
  Year : Option (List Char)
  QuerySet : List Char
  doi_norm : List Char
  title_norm : List Char
  key : List Char
deriving DecidableEq, Repr

/-- Embedding of `standardize`: detect columns by alias, default missing
fields to the empty string, fall back to the positional first column for the
title, attach the query-set label, and compute the normalized key. -/
def standardize (f : Frame) (qset : List Char) : List StdRecord :=
  let n := f.rows.length
  let titleCol := ((getCol f (pys "Title")).orElse
      (fun _ => getCol f (pys "title"))).getD (firstCol f)
  let doiCol := (firstAlias f doiAliases).getD (List.replicate n (some []))
  let urlCol := (firstAlias f urlAliases).getD (List.replicate n (some []))
  let authorsCol := (firstAlias f authorsAliases).getD (List.replicate n (some []))
  let yearCol := (firstAlias f yearAliases).getD (List.replicate n (some []))
  (List.range n).map (fun i =>
    let t := titleCol.getD i none
    let d := doiCol.getD i none
    let dn := norm_doi_cell d
    let tn := norm_title_cell t
    { Title := t
      DOI := d
      URL := urlCol.getD i none
      Authors := authorsCol.getD i none
      Year := yearCol.getD i none
      QuerySet := qset
      doi_norm := dn
      title_norm := tn
      key := if dn ≠ [] then dn else tn })

/-- Python `str()` of a cell, as used by `astype(str)`: NaN prints as "nan". -/
def pystrOfCell : Option (List Char) → List Char
  | none => pys "nan"
  | some s => s

/-- Sort criterion `has_doi` of `pick_rep`. -/
def has_doi (r : StdRecord) : Nat := if r.doi_norm ≠ [] then 1 else 0

/-- Sort criterion `title_len` of `pick_rep`. -/
def title_len (r : StdRecord) : Nat := (pystrOfCell r.Title).length

/-- Strict comparison of the two-criteria rank, ascending lexicographically. -/
def rankLtB (a b : Nat × Nat) : Bool := a.1 < b.1 || (a.1 = b.1 && a.2 < b.2)

/-- Placeholder record; only used as the fold default of `pick_rep` on an
empty group, which never arises (every key comes from a record). -/
def emptyStd : StdRecord :=
  { Title := none, DOI := none, URL := none, Authors := none, Year := none
    QuerySet := [], doi_norm := [], title_norm := [], key := [] }

/-- Embedding of `pick_rep`: the first row of the group sorted by
(`has_doi` descending, `title_len` descending) — equivalently the first
element attaining the greatest (has_doi, title_len) rank. -/
def pick_rep (g : List StdRecord) (dflt : StdRecord) : StdRecord :=
  match g with
  | [] => dflt
  | r :: rs =>
    rs.foldl (fun best x =>
      if rankLtB (has_doi best, title_len best) (has_doi x, title_len x) then x
      else best) r

/-- One output record of the merge.  The first six fields are the output
columns `Title, Authors, Year, DOI, URL, QuerySets`; `key` is the merge key
column of the intermediate frame, dropped at CSV output. -/
structure MergedRecord where
  Title : Option (List Char)
  Authors : Option (List Char)
  Year : Option (List Char)
  DOI : Option (List Char)
  URL : Option (List Char)
  QuerySets : List Char
  key : List Char
deriving DecidableEq, Repr

/-- Concatenation `pd.concat([A, B, C])` of the standardized collections. -/
def all_df (A B C : List StdRecord) : List StdRecord := A ++ B ++ C

/-- Group of records sharing key `k`. -/
def groupOf (rs : List StdRecord) (k : List Char) : List StdRecord :=
  rs.filter (fun r => r.key = k)

/-- Provenance column for key `k`: `"|".join(sorted(set(labels)))`. -/
def querySetsOf (rs : List StdRecord) (k : List Char) : List Char :=
  joinSep (pys "|") (sortedSet ((groupOf rs k).map (fun r => r.QuerySet)))

/-- Merge pass over a concatenated record list: one output record per
distinct key, carrying the representative's fields and the provenance. -/
def mergedOf (rs : List StdRecord) : List MergedRecord :=
  (dedupFirst (rs.map (fun r => r.key))).map (fun k =>
    let rep := pick_rep (groupOf rs k) emptyStd
    { Title := rep.Title, Authors := rep.Authors, Year := rep.Year
      DOI := rep.DOI, URL := rep.URL
      QuerySets := querySetsOf rs k, key := k })

/-- Embedding of the merge in `main`: standardize the three collections with
labels "A", "B", "C", concatenate, and merge. -/
def make_abc (fa fb fc : Frame) : List MergedRecord :=
  mergedOf (all_df (standardize fa (pys "A")) (standardize fb (pys "B"))
    (standardize fc (pys "C")))

/-- Total number of input records (`initial_total` in `main`). -/
def initial_total (fa fb fc : Frame) : Nat :=
  (standardize fa (pys "A")).length + (standardize fb (pys "B")).length +
    (standardize fc (pys "C")).length

/-- Number of merged records (`final_total` in `main`). -/
def final_total (fa fb fc : Frame) : Nat := (make_abc fa fb fc).length

/-- Reported number of removed duplicates (`removed` in `main`). -/
def removedCount (fa fb fc : Frame) : Nat :=
  initial_total fa fb fc - final_total fa fb fc

/-!
Definitions supporting the commutativity claim: the three label slots of
`main` (`"A"`, `"B"`, `"C"`), assembly of the concatenated standardized
records from a slot assignment, the label-independent key list of a frame,
and the label relabeling induced by a slot permutation.
-/

/-- Label attached to each of the three input slots of `main`. -/
def slotLabel : Fin 3 → List Char
  | 0 => pys "A"
  | 1 => pys "B"
  | 2 => pys "C"

/-- Concatenated standardized records for a slot assignment of frames. -/
def assemble (F : Fin 3 → Frame) : List StdRecord :=
  all_df (standardize (F 0) (slotLabel 0)) (standardize (F 1) (slotLabel 1))
    (standardize (F 2) (slotLabel 2))

/-- Keys contributed by one frame (independent of the attached label). -/
def frameKeys (f : Frame) : List (List Char) :=
  (standardize f []).map StdRecord.key

/-- Relabeling of the slot labels induced by the inverse `q` of a slot
permutation: the label of slot `j` becomes the label of slot `q j`. -/
def relabelStr (q : Fin 3 → Fin 3) (l : List Char) : List Char :=
  if l = slotLabel 0 then slotLabel (q 0)
  else if l = slotLabel 1 then slotLabel (q 1)
  else if l = slotLabel 2 then slotLabel (q 2)
  else l

/-- Transposition of the first two slots, used to instantiate the
commutativity theorem. -/
def swap01 : Fin 3 → Fin 3
  | 0 => 1
  | 1 => 0
  | 2 => 2

/-!
Concrete objects used by the claim theorems, and a spec-side definition for
the refinement comparison of the title-recovery rule.
-/

/-- Empty input collection. -/
def frameEmpty : Frame := { header := [], rows := [] }

/-- Slot assignment used to instantiate the commutativity theorem. -/
def F3ex : Fin 3 → Frame
  | 0 => { header := [pys "Title", pys "DOI"]
           rows := [[some (pys "Foo"), some (pys "10.1/x")]] }
  | 1 => { header := [pys "Title"], rows := [[some (pys "Foo")]] }
  | 2 => { header := [], rows := [] }

/-- Set A of the example merger scenario: one record with DOI `10.1/x` and
title `Foo`. -/
def frameA2 : Frame :=
  { header := [pys "Title", pys "DOI"]
    rows := [[some (pys "Foo"), some (pys "10.1/x")]] }

/-- Set B of the example merger scenario: one record with no DOI column and
title `Foo`. -/
def frameB2 : Frame :=
  { header := [pys "Title"]
    rows := [[some (pys "Foo")]] }

/-- Collection whose only column name matches no alias of any canonical
field. -/
def frameX : Frame := { header := [pys "X"], rows := [[some (pys "Hello")]] }

/-- Four-line document of the extractor example scenario. -/
def doc4 : List (List Char) :=
  [pys "Some Title", pys "Springer, 2019", pys "10.1007/xyz-123",
   pys "https://doi.org/10.1007/xyz-123"]

/-- Document with two anchor lines sharing one DOI. -/
def doc2 : List (List Char) := [pys "10.1000/abc", pys "10.1000/abc"]

/-- Merged record produced by the example merger scenario. -/
def mrec2 : MergedRecord :=
  { Title := some (pys "Foo"), Authors := some [], Year := some []
    DOI := some (pys "10.1/x"), URL := some []
    QuerySets := pys "A|B", key := pys "foo" }

/-- Record extracted from the first line of `doc2`. -/
def rec2 : ExtractedRecord :=
  { source := pys "ScienceDirect", title := none, authors := none
    year := none, doi := pys "10.1000/abc", url := none }

/-- Title-recovery rule as the spec words it: scan the integer indices
`i-1`, `i-2`, `i-3` nearest first, ignore indices outside the document, and
take the first line that is non-empty and does not start (case-insensitively)
with `http://`, `https://` or `doi:`; otherwise null. -/
def titleRuleSpec (lines : List (List Char)) (i : Nat) : Option (List Char) :=
  (([(i : Int) - 1, (i : Int) - 2, (i : Int) - 3].filterMap
    (fun j => if 0 ≤ j then some j.toNat else none)).findSome? (fun j =>
      let l := lines.getD j []
      if titleOk l then some l else none))

/-!
Helper lemmas: characters, stripping, pattern removal, lowercasing.
-/

theorem char_toNat_ofNat (n : Nat) (h : n.isValidChar) : (Char.ofNat n).toNat = n := by
  simp [Char.ofNat, h, Char.ofNatAux, Char.toNat, UInt32.toNat, BitVec.toNat_ofNatLt]

theorem char_le_iff (a b : Char) : a ≤ b ↔ a.toNat ≤ b.toNat := by
  constructor
  · intro h
    exact h
  · intro h
    exact h

theorem pyToLower_idem (c : Char) : pyToLower (pyToLower c) = pyToLower c := by
  unfold pyToLower
  by_cases h : 'A' ≤ c ∧ c ≤ 'Z'
  · rw [if_pos h]
    have h65 : 65 ≤ c.toNat := (char_le_iff 'A' c).1 h.1
    have h90 : c.toNat ≤ 90 := (char_le_iff c 'Z').1 h.2
    have hv : (c.toNat + 32).isValidChar := by
      left
      omega
    have ht : (Char.ofNat (c.toNat + 32)).toNat = c.toNat + 32 := char_toNat_ofNat _ hv
    rw [if_neg]
    intro hcon
    have hu : (65 : Nat) ≤ c.toNat + 32 := by
      have h2 := (char_le_iff 'A' (Char.ofNat (c.toNat + 32))).1 hcon.1
      rw [ht] at h2
      exact h2
    have hd : c.toNat + 32 ≤ 90 := by
      have h2 := (char_le_iff (Char.ofNat (c.toNat + 32)) 'Z').1 hcon.2
      rw [ht] at h2
      exact h2
    omega
  · rw [if_neg h, if_neg h]

theorem lstripP_sublist (p : Char → Bool) (l : List Char) : (lstripP p l).Sublist l :=
  List.dropWhile_sublist p

theorem rstripP_sublist (p : Char → Bool) (l : List Char) : (rstripP p l).Sublist l := by
  unfold rstripP
  have h := (List.dropWhile_sublist (l := l.reverse) p).reverse
  simpa using h

theorem stripP_sublist (p : Char → Bool) (l : List Char) : (stripP p l).Sublist l :=
  (rstripP_sublist p (lstripP p l)).trans (lstripP_sublist p l)

theorem mem_of_mem_removeAllF (pat : List Char) (fuel : Nat) (l : List Char) (a : Char)
    (h : a ∈ removeAllF pat fuel l) : a ∈ l := by
  induction fuel generalizing l with
  | zero => simpa [removeAllF] using h
  | succ fuel ih =>
    cases l with
    | nil => simp [removeAllF] at h
    | cons c rest =>
      simp only [removeAllF] at h
      split at h
      · exact List.mem_cons_of_mem c (List.mem_of_mem_drop (ih _ h))
      · rcases List.mem_cons.mp h with h1 | h2
        · simp [h1]
        · exact List.mem_cons_of_mem c (ih _ h2)

theorem mem_of_mem_removeAll (pat l : List Char) (a : Char)
    (h : a ∈ removeAll pat l) : a ∈ l :=
  mem_of_mem_removeAllF pat l.length l a h

theorem removeAllF_eq_of_not_contains (pat : List Char) (fuel : Nat) (l : List Char)
    (h : containsSub pat l = false) : removeAllF pat fuel l = l := by
  induction fuel generalizing l with
  | zero => rfl
  | succ fuel ih =>
    cases l with
    | nil => rfl
    | cons c rest =>
      simp only [containsSub, Bool.or_eq_false_iff] at h
      simp only [removeAllF]
      rw [if_neg, ih rest h.2]
      intro hcon
      rw [hcon.1] at h
      simp at h

theorem removeAll_eq_of_not_contains (pat l : List Char)
    (h : containsSub pat l = false) : removeAll pat l = l :=
  removeAllF_eq_of_not_contains pat l.length l h

theorem pyLower_eq_self (l : List Char) (h : ∀ c ∈ l, pyToLower c = c) : pyLower l = l := by
  unfold pyLower
  calc l.map pyToLower = l.map id := List.map_congr_left h
    _ = l := l.map_id

/-!
Claim C4 — the two DOI normalizations are not extensionally equal: the
extractor removes the `doi.org` prefixes before lowercasing, the merger
after, and the prefix removal can splice text into a new match.
-/

/-- C4 counterexample: on `"10.HTTPS://DOI.ORG/12345/x"` the extractor's
normalization returns the empty string while the merger's returns
`"10.12345/x"`, so the two embedded normalization functions differ. -/
theorem C4_counterexample :
    _norm_doi (pys "10.HTTPS://DOI.ORG/12345/x")
      ≠ norm_doi (pys "10.HTTPS://DOI.ORG/12345/x") := by
  decide

/-- C4 amended: the merger's `norm_doi` and the extractor's `_norm_doi`
agree on every string that contains no uppercase ASCII letter (on such
strings lowercasing commutes with every other step of both pipelines). -/
theorem C4_amended (x : List Char) (h : ∀ c ∈ x, pyToLower c = c) :
    _norm_doi x = norm_doi x := by
  have h1 : ∀ c ∈ stripWs x, pyToLower c = c := fun c hc =>
    h c ((stripP_sublist _ _).subset hc)
  have h2 : ∀ c ∈ stripDots (stripWs (removeAll (pys "http://doi.org/")
      (removeAll (pys "https://doi.org/") (stripWs x)))), pyToLower c = c := by
    intro c hc
    apply h1
    have hc2 := (stripP_sublist _ _).subset hc
    have hc3 := (stripP_sublist _ _).subset hc2
    have hc4 := mem_of_mem_removeAll _ _ _ hc3
    exact mem_of_mem_removeAll _ _ _ hc4
  simp only [_norm_doi, norm_doi]
  rw [pyLower_eq_self _ h1, pyLower_eq_self _ h2]

/-- C4 witness: the amended agreement evaluated at the lowercase input
`"https://doi.org/10.1016/j.example.2020.01.001."`. -/
theorem C4_witness :
    _norm_doi (pys "https://doi.org/10.1016/j.example.2020.01.001.")
      = norm_doi (pys "https://doi.org/10.1016/j.example.2020.01.001.") :=
  C4_amended _ (by decide)

/-!
Claim C7 — `norm_doi` is not idempotent as claimed: stripping trailing
punctuation from the match can leave a trailing slash, on which the pattern
no longer matches.
-/

/-- C7 counterexample: `norm_doi "10.1234/)" = "10.1234/"` but a second
application yields the empty string, refuting idempotence. -/
theorem C7_counterexample :
    norm_doi (norm_doi (pys "10.1234/)")) ≠ norm_doi (pys "10.1234/)") := by
  decide

/-!
Claim C8 — `norm_title` keeps underscores (regex `\w` includes them), so
its output is not limited to alphanumerics and spaces.
-/

/-- C8 counterexample: the underscore, a punctuation character that is
neither alphanumeric nor a space, survives `norm_title`. -/
theorem C8_counterexample :
    '_' ∈ norm_title (pys "a_b") ∧ ¬ (Char.isAlphanum '_' = true ∨ '_' = ' ') := by
  decide

/-!
Claim C2 — the example merger scenario.  The outcome (one record,
QuerySets `A|B`, representative = A's record) is as described, but not for
the claimed reason: `"10.1/x"` fails DOI normalization (fewer than four
digits), so both records have `has_doi = 0` and the representative is A's
record only by the stable tie-break on concatenation order.
-/

/-- C2 counterexample: in the example scenario both standardized records
have `has_doi = 0` — A's record's DOI `"10.1/x"` does not normalize to a
non-empty DOI, so the has-DOI criterion does not distinguish the two
records and cannot be what selects A's record. -/
theorem C2_counterexample :
    (standardize frameA2 (pys "A")).map has_doi = [0] ∧
    (standardize frameB2 (pys "B")).map has_doi = [0] := by
  decide

/-- C2 amended: the scenario yields exactly one merged record with
QuerySets `"A|B"` whose fields are those of A's record, the representative
being A's record by the stable tie-break (both group members have empty
normalized DOI and equal title length, and A's record comes first in
concatenation order). -/
theorem C2_amended :
    make_abc frameA2 frameB2 frameEmpty =
      [{ Title := some (pys "Foo"), Authors := some [], Year := some []
         DOI := some (pys "10.1/x"), URL := some []
         QuerySets := pys "A|B", key := pys "foo" }] ∧
    pick_rep (groupOf (all_df (standardize frameA2 (pys "A"))
        (standardize frameB2 (pys "B")) (standardize frameEmpty (pys "C")))
        (pys "foo")) emptyStd
      = (standardize frameA2 (pys "A")).getD 0 emptyStd := by
  decide

/-!
Claim C3 — column-detection defaults.  Four of the five canonical fields do
default to an all-empty column, but the Title falls back to the positional
first column of the input, so the claim fails for Title.
-/

theorem map_getD_range {α : Type} (l : List α) (d : α) :
    (List.range l.length).map (fun i => l.getD i d) = l := by
  induction l with
  | nil => rfl
  | cons x xs ih =>
    rw [List.length_cons, List.range_succ_eq_map, List.map_cons, List.map_map]
    simp only [Function.comp_def, List.getD_cons_zero, List.getD_cons_succ]
    rw [ih]

theorem map_getD_replicate {α : Type} (n : Nat) (a d : α) :
    (List.range n).map (fun i => (List.replicate n a).getD i d) = List.replicate n a := by
  have h : ∀ i ∈ List.range n, (List.replicate n a).getD i d = a := by
    intro i hi
    rw [List.mem_range] at hi
    simp [List.getD, List.getElem?_replicate, hi]
  rw [List.map_congr_left h]
  simp [List.map_const]

theorem firstAlias_eq_none (f : Frame) (names : List (List Char))
    (h : ∀ n ∈ names, n ∉ f.header) : firstAlias f names = none := by
  induction names with
  | nil => rfl
  | cons n rest ih =>
    have hg : getCol f n = none := by
      unfold getCol
      rw [if_neg (h n (by simp))]
    simp only [firstAlias, hg]
    exact ih (fun m hm => h m (List.mem_cons_of_mem _ hm))

/-- C3 counterexample: a collection whose only column is named `X` has no
Title alias, yet standardization fills the Title field with the first
column's values (`"Hello"`), not with an all-empty column. -/
theorem C3_counterexample :
    (pys "Title") ∉ frameX.header ∧ (pys "title") ∉ frameX.header ∧
    (standardize frameX (pys "A")).map StdRecord.Title = [some (pys "Hello")] := by
  decide

/-- C3 amended: standardization is total (one output record per input row);
when none of the alias names of DOI, URL, Authors or Year is present, that
field becomes an all-empty column; when neither `Title` nor `title` is
present, the Title field is filled from the positional first column rather
than being empty. -/
theorem C3_amended (f : Frame) (q : List Char) :
    (standardize f q).length = f.rows.length ∧
    ((∀ n ∈ doiAliases, n ∉ f.header) →
      (standardize f q).map StdRecord.DOI = List.replicate f.rows.length (some [])) ∧
    ((∀ n ∈ urlAliases, n ∉ f.header) →
      (standardize f q).map StdRecord.URL = List.replicate f.rows.length (some [])) ∧
    ((∀ n ∈ authorsAliases, n ∉ f.header) →
      (standardize f q).map StdRecord.Authors = List.replicate f.rows.length (some [])) ∧
    ((∀ n ∈ yearAliases, n ∉ f.header) →
      (standardize f q).map StdRecord.Year = List.replicate f.rows.length (some [])) ∧
    (((pys "Title") ∉ f.header ∧ (pys "title") ∉ f.header) →
      (standardize f q).map StdRecord.Title = firstCol f) := by
  refine ⟨?_, ?_, ?_, ?_, ?_, ?_⟩
  · simp [standardize]
  · intro h
    simp only [standardize, List.map_map]
    rw [firstAlias_eq_none f doiAliases h]
    simp only [Option.getD_none]
    have := map_getD_replicate (α := Option (List Char)) f.rows.length (some []) none
    convert this using 2
  · intro h
    simp only [standardize, List.map_map]
    rw [firstAlias_eq_none f urlAliases h]
    simp only [Option.getD_none]
    have := map_getD_replicate (α := Option (List Char)) f.rows.length (some []) none
    convert this using 2
  · intro h
    simp only [standardize, List.map_map]
    rw [firstAlias_eq_none f authorsAliases h]
    simp only [Option.getD_none]
    have := map_getD_replicate (α := Option (List Char)) f.rows.length (some []) none
    convert this using 2
  · intro h
    simp only [standardize, List.map_map]
    rw [firstAlias_eq_none f yearAliases h]
    simp only [Option.getD_none]
    have := map_getD_replicate (α := Option (List Char)) f.rows.length (some []) none
    convert this using 2
  · intro h
    simp only [standardize, List.map_map]
    have hg1 : getCol f (pys "Title") = none := by
      unfold getCol
      rw [if_neg h.1]
    have hg2 : getCol f (pys "title") = none := by
      unfold getCol
      rw [if_neg h.2]
    rw [hg1, hg2]
    simp only [Option.orElse, Option.getD_none]
    have hl : (firstCol f).length = f.rows.length := by
      simp [firstCol]
    have := map_getD_range (α := Option (List Char)) (firstCol f) none
    rw [hl] at this
    convert this using 2

/-- C3 witness: the amended statement evaluated on the one-column collection
`frameX`, discharging the alias-absence hypotheses. -/
theorem C3_witness :
    (standardize frameX (pys "A")).map StdRecord.DOI
        = List.replicate frameX.rows.length (some []) ∧
    (standardize frameX (pys "A")).map StdRecord.Title = firstCol frameX :=
  ⟨(C3_amended frameX (pys "A")).2.1 (by decide),
   (C3_amended frameX (pys "A")).2.2.2.2.2 (by decide)⟩

theorem mem_collapseWsAux (b : Bool) (l : List Char) (c : Char)
    (h : c ∈ collapseWsAux b l) : c = ' ' ∨ (c ∈ l ∧ isPySpace c = false) := by
  induction l generalizing b with
  | nil => simp [collapseWsAux] at h
  | cons d rest ih =>
    simp only [collapseWsAux] at h
    by_cases hd : isPySpace d
    · rw [if_pos hd] at h
      by_cases hb : b
      · rw [if_pos hb] at h
        rcases ih true h with h1 | h2
        · exact Or.inl h1
        · exact Or.inr ⟨List.mem_cons_of_mem d h2.1, h2.2⟩
      · rw [if_neg hb] at h
        rcases List.mem_cons.mp h with h1 | h2
        · exact Or.inl h1
        · rcases ih true h2 with h1 | h3
          · exact Or.inl h1
          · exact Or.inr ⟨List.mem_cons_of_mem d h3.1, h3.2⟩
    · rw [if_neg hd] at h
      rcases List.mem_cons.mp h with h1 | h2
      · subst h1
        exact Or.inr ⟨List.mem_cons_self _ _, by simpa using hd⟩
      · rcases ih false h2 with h1 | h3
        · exact Or.inl h1
        · exact Or.inr ⟨List.mem_cons_of_mem d h3.1, h3.2⟩

theorem head_collapseWsAux_true (l : List Char) (c : Char)
    (h : (collapseWsAux true l).head? = some c) : isPySpace c = false := by
  induction l with
  | nil => simp [collapseWsAux] at h
  | cons d rest ih =>
    simp only [collapseWsAux] at h
    by_cases hd : isPySpace d
    · rw [if_pos hd] at h
      simp only [if_true] at h
      exact ih h
    · rw [if_neg hd] at h
      simp only [List.head?_cons, Option.some.injEq] at h
      subst h
      simpa using hd

theorem chain_collapseWsAux (b : Bool) (l : List Char) :
    List.Chain' (fun a c => ¬ (a = ' ' ∧ c = ' ')) (collapseWsAux b l) := by
  induction l generalizing b with
  | nil => simp [collapseWsAux]
  | cons d rest ih =>
    simp only [collapseWsAux]
    by_cases hd : isPySpace d
    · rw [if_pos hd]
      by_cases hb : b
      · rw [if_pos hb]
        exact ih true
      · rw [if_neg hb]
        rw [List.chain'_cons']
        refine ⟨?_, ih true⟩
        intro y hy
        intro hcon
        have := head_collapseWsAux_true rest y hy
        rw [hcon.2] at this
        simp [isPySpace] at this
    · rw [if_neg hd]
      rw [List.chain'_cons']
      refine ⟨?_, ih false⟩
      intro y hy hcon
      rw [hcon.1] at hd
      simp [isPySpace] at hd

theorem lstripP_suffix (p : Char → Bool) (l : List Char) : (lstripP p l) <:+ l :=
  List.dropWhile_suffix p

theorem prefix_rstripP (p : Char → Bool) (l : List Char) : (rstripP p l) <+: l := by
  unfold rstripP
  have h := List.dropWhile_suffix (l := l.reverse) p
  have h2 := List.reverse_prefix.mpr h
  simpa using h2

theorem lstripP_head (p : Char → Bool) (l : List Char) (c : Char)
    (h : (lstripP p l).head? = some c) : p c = false := by
  induction l with
  | nil => simp [lstripP] at h
  | cons d rest ih =>
    unfold lstripP at h
    rw [List.dropWhile_cons] at h
    by_cases hd : p d
    · rw [if_pos hd] at h
      exact ih h
    · rw [if_neg hd] at h
      simp only [List.head?_cons, Option.some.injEq] at h
      subst h
      simpa using hd

theorem rstripP_getLast (p : Char → Bool) (l : List Char) (c : Char)
    (h : (rstripP p l).getLast? = some c) : p c = false := by
  unfold rstripP at h
  rw [List.getLast?_reverse] at h
  exact lstripP_head p l.reverse c h

theorem prefix_head_eq {α : Type} (x y : List α) (c : α) (hp : x <+: y)
    (hx : x.head? = some c) : y.head? = some c := by
  rcases hp with ⟨t, rfl⟩
  cases x with
  | nil => simp at hx
  | cons a rest =>
    simpa using hx

theorem stripP_head (p : Char → Bool) (l : List Char) (c : Char)
    (h : (stripP p l).head? = some c) : p c = false := by
  unfold stripP at h
  have := prefix_head_eq _ _ _ (prefix_rstripP p (lstripP p l)) h
  exact lstripP_head p l c this

theorem stripP_getLast (p : Char → Bool) (l : List Char) (c : Char)
    (h : (stripP p l).getLast? = some c) : p c = false :=
  rstripP_getLast p (lstripP p l) c h

theorem stripP_chain (p : Char → Bool) (R : Char → Char → Prop) (l : List Char)
    (h : List.Chain' R l) : List.Chain' R (stripP p l) :=
  List.Chain'.prefix (List.Chain'.suffix h (lstripP_suffix p l)) (prefix_rstripP p (lstripP p l))

/-- C8 amended: for every input, every character of the result of
`norm_title` is a word character (alphanumeric or underscore) or a space,
no two consecutive characters are both spaces, and the result neither
starts nor ends with a space. -/
theorem C8_amended (t : List Char) :
    (∀ c ∈ norm_title t, isWordChar c = true ∨ c = ' ') ∧
    List.Chain' (fun a b => ¬ (a = ' ' ∧ b = ' ')) (norm_title t) ∧
    (norm_title t).head? ≠ some ' ' ∧
    (norm_title t).getLast? ≠ some ' ' := by
  have hnt : norm_title t = stripWs (collapseWsAux false
      ((pyLower (stripWs t)).map (fun c => if isWordChar c || isPySpace c then c else ' '))) := rfl
  refine ⟨?_, ?_, ?_, ?_⟩
  · intro c hc
    rw [hnt] at hc
    have hc1 := (stripP_sublist _ _).subset hc
    rcases mem_collapseWsAux false _ c hc1 with h1 | ⟨hmem, hns⟩
    · exact Or.inr h1
    · rcases List.mem_map.mp hmem with ⟨c2, _, hrepl⟩
      by_cases hw : isWordChar c2 || isPySpace c2
      · rw [if_pos hw] at hrepl
        subst hrepl
        rcases (Bool.or_eq_true _ _).mp hw with h1 | h2
        · exact Or.inl h1
        · rw [h2] at hns
          simp at hns
      · rw [if_neg hw] at hrepl
        rw [← hrepl] at hns
        simp [isPySpace] at hns
  · rw [hnt]
    exact stripP_chain isPySpace _ _ (chain_collapseWsAux false _)
  · intro hcon
    rw [hnt] at hcon
    have := stripP_head isPySpace _ _ hcon
    simp [isPySpace] at this
  · intro hcon
    rw [hnt] at hcon
    have := stripP_getLast isPySpace _ _ hcon
    simp [isPySpace] at this

/-- C8 witness: the amended statement evaluated on `"a_b"`, discharging the
membership hypothesis at the underscore character. -/
theorem C8_witness :
    (isWordChar '_' = true ∨ '_' = ' ') ∧
    List.Chain' (fun a b => ¬ (a = ' ' ∧ b = ' ')) (norm_title (pys "a_b")) ∧
    (norm_title (pys "a_b")).head? ≠ some ' ' :=
  ⟨(C8_amended (pys "a_b")).1 '_' (by decide), (C8_amended (pys "a_b")).2.1,
   (C8_amended (pys "a_b")).2.2.1⟩

theorem mem_dedupSeen (seen : List (List Char)) (l : List (List Char)) (a : List Char) :
    a ∈ dedupSeen seen l ↔ a ∈ l ∧ a ∉ seen := by
  induction l generalizing seen with
  | nil => simp [dedupSeen]
  | cons x xs ih =>
    simp only [dedupSeen]
    by_cases hx : x ∈ seen
    · rw [if_pos hx, ih]
      constructor
      · rintro ⟨h1, h2⟩
        exact ⟨List.mem_cons_of_mem x h1, h2⟩
      · rintro ⟨h1, h2⟩
        rcases List.mem_cons.mp h1 with h3 | h3
        · subst h3
          exact absurd hx h2
        · exact ⟨h3, h2⟩
    · rw [if_neg hx]
      constructor
      · intro h
        rcases List.mem_cons.mp h with h1 | h1
        · subst h1
          exact ⟨List.mem_cons_self _ _, hx⟩
        · rcases (ih (x :: seen)).mp h1 with ⟨h2, h3⟩
          refine ⟨List.mem_cons_of_mem x h2, ?_⟩
          intro hcon
          exact h3 (List.mem_cons_of_mem x hcon)
      · rintro ⟨h1, h2⟩
        rcases List.mem_cons.mp h1 with h3 | h3
        · subst h3
          exact List.mem_cons_self _ _
        · by_cases hax : a = x
          · subst hax
            exact List.mem_cons_self _ _
          · refine List.mem_cons_of_mem x ((ih (x :: seen)).mpr ⟨h3, ?_⟩)
            intro hcon
            rcases List.mem_cons.mp hcon with h4 | h4
            · exact hax h4
            · exact h2 h4

theorem dedupSeen_nodup (seen : List (List Char)) (l : List (List Char)) :
    (dedupSeen seen l).Nodup := by
  induction l generalizing seen with
  | nil => simp [dedupSeen]
  | cons x xs ih =>
    simp only [dedupSeen]
    by_cases hx : x ∈ seen
    · rw [if_pos hx]
      exact ih seen
    · rw [if_neg hx]
      refine List.Nodup.cons ?_ (ih (x :: seen))
      intro hcon
      have := ((mem_dedupSeen (x :: seen) xs x).mp hcon).2
      exact this (List.mem_cons_self _ _)

theorem dedupFirst_length (l : List (List Char)) :
    (dedupFirst l).length = l.toFinset.card := by
  have hnd : (dedupFirst l).Nodup := dedupSeen_nodup [] l
  rw [← List.toFinset_card_of_nodup hnd]
  congr 1
  ext a
  simp only [List.mem_toFinset]
  unfold dedupFirst
  rw [mem_dedupSeen]
  simp

/-- C5: the number of merged records equals the number of distinct keys
over the union of the three standardized collections, and the reported
removed count is exactly the initial total minus the merged count. -/
theorem C5_merge_counts (fa fb fc : Frame) :
    final_total fa fb fc =
      ((all_df (standardize fa (pys "A")) (standardize fb (pys "B"))
        (standardize fc (pys "C"))).map StdRecord.key).toFinset.card ∧
    removedCount fa fb fc = initial_total fa fb fc - final_total fa fb fc := by
  constructor
  · unfold final_total make_abc mergedOf
    rw [List.length_map]
    exact dedupFirst_length _
  · rfl

theorem dropDupDoi_sublist (seen : List (List Char)) (l : List ExtractedRecord) :
    (dropDupDoi seen l).Sublist l := by
  induction l generalizing seen with
  | nil => simp [dropDupDoi]
  | cons r rs ih =>
    simp only [dropDupDoi]
    split
    · exact (ih seen).cons r
    · exact (ih _).cons₂ r

theorem mem_dropDupDoi (seen : List (List Char)) (l : List ExtractedRecord)
    (r : ExtractedRecord) (h : r ∈ dropDupDoi seen l) :
    r ∈ l ∧ _norm_doi r.doi ∉ seen := by
  induction l generalizing seen with
  | nil => simp [dropDupDoi] at h
  | cons x xs ih =>
    simp only [dropDupDoi] at h
    by_cases hx : _norm_doi x.doi ∈ seen
    · rw [if_pos hx] at h
      rcases ih seen h with ⟨h1, h2⟩
      exact ⟨List.mem_cons_of_mem x h1, h2⟩
    · rw [if_neg hx] at h
      rcases List.mem_cons.mp h with h1 | h1
      · subst h1
        exact ⟨List.mem_cons_self _ _, hx⟩
      · rcases ih _ h1 with ⟨h2, h3⟩
        refine ⟨List.mem_cons_of_mem x h2, ?_⟩
        intro hcon
        exact h3 (List.mem_cons_of_mem _ hcon)

theorem dropDupDoi_nodup_keys (seen : List (List Char)) (l : List ExtractedRecord) :
    ((dropDupDoi seen l).map (fun r => _norm_doi r.doi)).Nodup := by
  induction l generalizing seen with
  | nil => simp [dropDupDoi]
  | cons x xs ih =>
    simp only [dropDupDoi]
    by_cases hx : _norm_doi x.doi ∈ seen
    · rw [if_pos hx]
      exact ih seen
    · rw [if_neg hx]
      rw [List.map_cons]
      refine List.Nodup.cons ?_ (ih _)
      intro hcon
      rcases List.mem_map.mp hcon with ⟨s, hs, hks⟩
      have := (mem_dropDupDoi _ _ s hs).2
      rw [hks] at this
      exact this (List.mem_cons_self _ _)

theorem dropDupDoi_first (seen : List (List Char)) (l : List ExtractedRecord)
    (r : ExtractedRecord) (h : r ∈ dropDupDoi seen l) :
    l.find? (fun x => _norm_doi x.doi == _norm_doi r.doi) = some r := by
  induction l generalizing seen with
  | nil => simp [dropDupDoi] at h
  | cons x xs ih =>
    simp only [dropDupDoi] at h
    by_cases hx : _norm_doi x.doi ∈ seen
    · rw [if_pos hx] at h
      have hr := (mem_dropDupDoi _ _ r h).2
      have hne : (_norm_doi x.doi == _norm_doi r.doi) = false := by
        rw [beq_eq_false_iff_ne]
        intro hcon
        rw [hcon] at hx
        exact hr hx
      rw [List.find?_cons_of_neg _ (by simp [hne]), ih seen h]
    · rw [if_neg hx] at h
      rcases List.mem_cons.mp h with h1 | h1
      · subst h1
        rw [List.find?_cons_of_pos]
        simp
      · have hr := (mem_dropDupDoi _ _ r h1).2
        have hne : (_norm_doi x.doi == _norm_doi r.doi) = false := by
          rw [beq_eq_false_iff_ne]
          intro hcon
          rw [← hcon] at hr
          exact hr (List.mem_cons_self _ _)
        rw [List.find?_cons_of_neg _ (by simp [hne]), ih _ h1]

theorem dropDupDoi_covers (seen : List (List Char)) (l : List ExtractedRecord)
    (r : ExtractedRecord) (h : r ∈ l) :
    _norm_doi r.doi ∈ seen ∨
      ∃ s ∈ dropDupDoi seen l, _norm_doi s.doi = _norm_doi r.doi := by
  induction l generalizing seen with
  | nil => simp at h
  | cons x xs ih =>
    simp only [dropDupDoi]
    rcases List.mem_cons.mp h with h1 | h1
    · subst h1
      by_cases hx : _norm_doi r.doi ∈ seen
      · exact Or.inl hx
      · rw [if_neg hx]
        exact Or.inr ⟨r, List.mem_cons_self _ _, rfl⟩
    · by_cases hx : _norm_doi x.doi ∈ seen
      · rw [if_pos hx]
        exact ih seen h1
      · rw [if_neg hx]
        rcases ih (_norm_doi x.doi :: seen) h1 with h2 | h2
        · rcases List.mem_cons.mp h2 with h3 | h3
          · exact Or.inr ⟨x, List.mem_cons_self _ _, h3.symm⟩
          · exact Or.inl h3
        · rcases h2 with ⟨s, hs, hks⟩
          exact Or.inr ⟨s, List.mem_cons_of_mem x hs, hks⟩

/-- C6: the within-document dedup keeps an order-preserving selection of the
emitted records, with pairwise-distinct normalized DOIs (so at most one
record whose DOI normalizes to the empty string survives), each survivor is
the first emitted record bearing its normalized DOI, every emitted
normalized DOI is represented, and the two-anchor document with one shared
DOI yields exactly its first record. -/
theorem C6_dedup (input : List (List Char)) :
    (parse_sciencedirect_txt input).Sublist (rawRecords input) ∧
    ((parse_sciencedirect_txt input).map (fun r => _norm_doi r.doi)).Nodup ∧
    (∀ r ∈ parse_sciencedirect_txt input,
      (rawRecords input).find? (fun x => _norm_doi x.doi == _norm_doi r.doi) = some r) ∧
    (∀ r ∈ rawRecords input, ∃ s ∈ parse_sciencedirect_txt input,
      _norm_doi s.doi = _norm_doi r.doi) ∧
    parse_sciencedirect_txt doc2 = [rec2] ∧ (rawRecords doc2).length = 2 := by
  refine ⟨dropDupDoi_sublist _ _, dropDupDoi_nodup_keys _ _, ?_, ?_, by decide, by decide⟩
  · intro r hr
    exact dropDupDoi_first _ _ r hr
  · intro r hr
    rcases dropDupDoi_covers [] _ r hr with h | h
    · simp at h
    · exact h

/-- C6 witness: the first-survivor property evaluated on `doc2` at the
surviving record `rec2`. -/
theorem C6_witness :
    (rawRecords doc2).find? (fun x => _norm_doi x.doi == _norm_doi rec2.doi) = some rec2 :=
  (C6_dedup doc2).2.2.1 rec2 (by decide)

theorem foldl_pick_mem (rs : List StdRecord) (r : StdRecord) :
    rs.foldl (fun best x =>
      if rankLtB (has_doi best, title_len best) (has_doi x, title_len x) then x
      else best) r ∈ r :: rs := by
  induction rs generalizing r with
  | nil => simp
  | cons x xs ih =>
    simp only [List.foldl_cons]
    by_cases hc : rankLtB (has_doi r, title_len r) (has_doi x, title_len x)
    · rw [if_pos hc]
      rcases List.mem_cons.mp (ih x) with h1 | h1
      · rw [h1]
        simp
      · exact List.mem_cons_of_mem r (List.mem_cons_of_mem x h1)
    · rw [if_neg hc]
      rcases List.mem_cons.mp (ih r) with h1 | h1
      · rw [h1]
        simp
      · exact List.mem_cons_of_mem r (List.mem_cons_of_mem x h1)

theorem pick_rep_mem (g : List StdRecord) (d : StdRecord) (h : g ≠ []) :
    pick_rep g d ∈ g := by
  cases g with
  | nil => exact absurd rfl h
  | cons r rs =>
    simp only [pick_rep]
    exact foldl_pick_mem rs r

/-- C10: every merged record's Title, Authors, Year, DOI and URL are exactly
those of one standardized input record belonging to the group of its key,
and only the QuerySets column is synthesized from the whole group. -/
theorem C10_representative (fa fb fc : Frame) :
    ∀ m ∈ make_abc fa fb fc,
      ∃ r ∈ all_df (standardize fa (pys "A")) (standardize fb (pys "B"))
          (standardize fc (pys "C")),
        r.key = m.key ∧ m.Title = r.Title ∧ m.Authors = r.Authors ∧
        m.Year = r.Year ∧ m.DOI = r.DOI ∧ m.URL = r.URL ∧
        m.QuerySets = querySetsOf (all_df (standardize fa (pys "A"))
          (standardize fb (pys "B")) (standardize fc (pys "C"))) m.key := by
  intro m hm
  unfold make_abc mergedOf at hm
  rcases List.mem_map.mp hm with ⟨k, hk, hmk⟩
  have hk2 : k ∈ (all_df (standardize fa (pys "A")) (standardize fb (pys "B"))
      (standardize fc (pys "C"))).map StdRecord.key := by
    unfold dedupFirst at hk
    exact ((mem_dedupSeen [] _ k).mp hk).1
  rcases List.mem_map.mp hk2 with ⟨r0, hr0, hr0k⟩
  have hg : groupOf (all_df (standardize fa (pys "A")) (standardize fb (pys "B"))
      (standardize fc (pys "C"))) k ≠ [] := by
    intro hcon
    have hmem0 : r0 ∈ groupOf (all_df (standardize fa (pys "A"))
        (standardize fb (pys "B")) (standardize fc (pys "C"))) k :=
      List.mem_filter.mpr ⟨hr0, by simp [hr0k]⟩
    rw [hcon] at hmem0
    simp at hmem0
  have hmem := pick_rep_mem _ emptyStd hg
  have hf := List.mem_filter.mp hmem
  have hkey : (pick_rep (groupOf (all_df (standardize fa (pys "A"))
      (standardize fb (pys "B")) (standardize fc (pys "C"))) k) emptyStd).key = k := by
    have := hf.2
    simpa using this
  subst hmk
  exact ⟨_, hf.1, hkey, rfl, rfl, rfl, rfl, rfl, rfl⟩

/-- C10 witness: the membership statement evaluated on the example frames,
at the single merged record `mrec2`. -/
theorem C10_witness :
    ∃ r ∈ all_df (standardize frameA2 (pys "A")) (standardize frameB2 (pys "B"))
        (standardize frameEmpty (pys "C")),
      r.key = mrec2.key ∧ mrec2.Title = r.Title ∧ mrec2.Authors = r.Authors ∧
      mrec2.Year = r.Year ∧ mrec2.DOI = r.DOI ∧ mrec2.URL = r.URL ∧
      mrec2.QuerySets = querySetsOf (all_df (standardize frameA2 (pys "A"))
        (standardize frameB2 (pys "B")) (standardize frameEmpty (pys "C")))
        mrec2.key :=
  C10_representative frameA2 frameB2 frameEmpty mrec2 (by decide)

theorem lookbackIdxs_eq (i : Nat) :
    ([(i : Int) - 1, (i : Int) - 2, (i : Int) - 3].filterMap
      (fun j => if 0 ≤ j then some j.toNat else none)) = lookbackIdxs i := by
  obtain _ | _ | _ | n := i
  · decide
  · decide
  · decide
  · have hL : ([((n + 3 : Nat) : Int) - 1, ((n + 3 : Nat) : Int) - 2,
        ((n + 3 : Nat) : Int) - 3].filterMap
        (fun j => if 0 ≤ j then some j.toNat else none)) = [n + 2, n + 1, n] := by
      have e1 : ((n + 3 : Nat) : Int) - 1 = ((n + 2 : Nat) : Int) := by push_cast; ring
      have e2 : ((n + 3 : Nat) : Int) - 2 = ((n + 1 : Nat) : Int) := by push_cast; ring
      have e3 : ((n + 3 : Nat) : Int) - 3 = ((n : Nat) : Int) := by push_cast; ring
      rw [e1, e2, e3]
      simp only [List.filterMap_cons, List.filterMap_nil]
      rw [if_pos (Int.natCast_nonneg _), if_pos (Int.natCast_nonneg _),
        if_pos (Int.natCast_nonneg _)]
      simp only [List.cons.injEq, and_true]
      omega
    have hR : lookbackIdxs (n + 3) = [n + 2, n + 1, n] := by
      unfold lookbackIdxs
      have hr : List.range 3 = [0, 1, 2] := rfl
      rw [hr]
      simp only [List.filterMap_cons, List.filterMap_nil]
      rw [if_pos (show 0 + 1 ≤ n + 3 by omega), if_pos (show 1 + 1 ≤ n + 3 by omega),
        if_pos (show 2 + 1 ≤ n + 3 by omega)]
      simp only [List.cons.injEq, and_true]
      omega
    rw [hL, hR]

theorem titleLookback_eq_spec (lines : List (List Char)) (i : Nat) :
    titleLookback lines i = titleRuleSpec lines i := by
  unfold titleLookback titleRuleSpec
  rw [lookbackIdxs_eq]

/-- C1 counterexample: on the four-line example document the single
surviving record's title is `"Springer, 2019"` — the nearest qualifying
lookback line — not `"Some Title"` as the claim states. -/
theorem C1_counterexample :
    (parse_sciencedirect_txt doc4).map ExtractedRecord.title
        = [some (pys "Springer, 2019")] ∧
    some (pys "Springer, 2019") ≠ some (pys "Some Title") := by
  decide

/-- C1 amended: the four-line example document yields exactly one surviving
record with title `"Springer, 2019"` (the nearest non-empty non-URL
lookback line), year `"2019"`, DOI `"10.1007/xyz-123"` and no URL (neither
the anchor line nor the preceding line contains an `http(s)://` token); and
title recovery in general returns, among lines `i-1`, `i-2`, `i-3` (nearest
first), the first that is non-empty and does not start with `http://`,
`https://` or `doi:` case-insensitively, else null. -/
theorem C1_amended :
    parse_sciencedirect_txt doc4 =
      [{ source := pys "ScienceDirect", title := some (pys "Springer, 2019")
         authors := none, year := some (pys "2019")
         doi := pys "10.1007/xyz-123", url := none }] ∧
    (∀ lines i, titleLookback lines i = titleRuleSpec lines i) := by
  constructor
  · decide
  · exact titleLookback_eq_spec

theorem takeWhile_append_stop (p : Char → Bool) (a : List Char) (x : Char) (t : List Char)
    (ha : ∀ c ∈ a, p c = true) (hx : p x = false) :
    (a ++ x :: t).takeWhile p = a := by
  induction a with
  | nil => simp [List.takeWhile_cons, hx]
  | cons c cs ih =>
    rw [List.cons_append, List.takeWhile_cons, if_pos (ha c (by simp))]
    rw [ih (fun d hd => ha d (List.mem_cons_of_mem c hd))]

theorem dropWhile_append_stop (p : Char → Bool) (a : List Char) (x : Char) (t : List Char)
    (ha : ∀ c ∈ a, p c = true) (hx : p x = false) :
    (a ++ x :: t).dropWhile p = x :: t := by
  induction a with
  | nil => simp [List.dropWhile_cons, hx]
  | cons c cs ih =>
    rw [List.cons_append, List.dropWhile_cons, if_pos (ha c (by simp))]
    exact ih (fun d hd => ha d (List.mem_cons_of_mem c hd))

theorem takeWhile_eq_self_of (p : Char → Bool) (l : List Char)
    (h : ∀ c ∈ l, p c = true) : l.takeWhile p = l := by
  induction l with
  | nil => rfl
  | cons c cs ih =>
    rw [List.takeWhile_cons, if_pos (h c (by simp))]
    rw [ih (fun d hd => h d (List.mem_cons_of_mem c hd))]

theorem lstripP_eq_self (p : Char → Bool) (l : List Char)
    (h : ∀ c, l.head? = some c → p c = false) : lstripP p l = l := by
  cases l with
  | nil => rfl
  | cons c rest =>
    unfold lstripP
    rw [List.dropWhile_cons, if_neg]
    simp [h c rfl]

theorem rstripP_eq_self (p : Char → Bool) (l : List Char)
    (h : ∀ c, l.getLast? = some c → p c = false) : rstripP p l = l := by
  unfold rstripP
  have h2 : l.reverse.dropWhile p = l.reverse := by
    have := lstripP_eq_self p l.reverse (fun c hc => h c (by rwa [List.head?_reverse] at hc))
    exact this
  rw [h2, List.reverse_reverse]

theorem stripP_eq_self (p : Char → Bool) (l : List Char)
    (hh : ∀ c, l.head? = some c → p c = false)
    (hl : ∀ c, l.getLast? = some c → p c = false) : stripP p l = l := by
  unfold stripP
  rw [lstripP_eq_self p l hh, rstripP_eq_self p l hl]

theorem rstripP_append (p : Char → Bool) (a b : List Char) :
    rstripP p (a ++ b) = if rstripP p b = [] then rstripP p a else a ++ rstripP p b := by
  unfold rstripP
  rw [List.reverse_append, List.dropWhile_append]
  by_cases hb : List.dropWhile p b.reverse = []
  · rw [if_pos (by simp [hb]), if_pos (by simp [hb])]
  · rw [if_neg (by simp [hb]), if_neg (by simp [hb])]
    rw [List.reverse_append, List.reverse_reverse]

theorem doiMatchAt_some (l m : List Char) (h : doiMatchAt l = some m) :
    ∃ D T, m = '1' :: '0' :: '.' :: (D ++ '/' :: T) ∧
      (∀ c ∈ D, c.isDigit = true) ∧ 4 ≤ D.length ∧ D.length ≤ 9 ∧
      T ≠ [] ∧ (∀ c ∈ T, isPySpace c = false) ∧ m <+: l := by
  unfold doiMatchAt at h
  split at h
  rotate_left
  · exact absurd h (by simp)
  next rest =>
    simp only [] at h
    split at h
    rotate_left
    · exact absurd h (by simp)
    next tail heq =>
      split at h
      rotate_left
      · exact absurd h (by simp)
      next hcond =>
        have hm : m = '1' :: '0' :: '.' ::
            (rest.takeWhile Char.isDigit ++ '/' :: tail.takeWhile (fun c => !(isPySpace c))) :=
          (Option.some.inj h).symm
        refine ⟨rest.takeWhile Char.isDigit, tail.takeWhile (fun c => !(isPySpace c)),
          hm, ?_, hcond.1, hcond.2.1, hcond.2.2, ?_, ?_⟩
        · intro c hc
          exact List.mem_takeWhile_imp hc
        · intro c hc
          have := List.mem_takeWhile_imp hc
          simpa using this
        · refine ⟨tail.dropWhile (fun c => !(isPySpace c)), ?_⟩
          rw [hm]
          have htd : tail.takeWhile (fun c => !(isPySpace c)) ++
              tail.dropWhile (fun c => !(isPySpace c)) = tail :=
            List.takeWhile_append_dropWhile _ _
          have hrest : rest.takeWhile Char.isDigit ++ '/' :: tail = rest := by
            rw [← heq]
            exact List.takeWhile_append_dropWhile _ _
          simp only [List.cons_append, List.append_assoc, htd]
          rw [hrest]

theorem doiSearch_some (s m : List Char) (h : doiSearch s = some m) :
    ∃ l, l <:+ s ∧ doiMatchAt l = some m := by
  induction s with
  | nil => simp [doiSearch] at h
  | cons c rest ih =>
    simp only [doiSearch] at h
    split at h
    next m2 heq =>
      refine ⟨c :: rest, List.suffix_refl _, ?_⟩
      rw [heq, h]
    next heq =>
      rcases ih h with ⟨l, hl, hm⟩
      exact ⟨l, hl.trans (List.suffix_cons c rest), hm⟩

theorem mem_of_doiSearch (s m : List Char) (h : doiSearch s = some m) (c : Char)
    (hc : c ∈ m) : c ∈ s := by
  rcases doiSearch_some s m h with ⟨l, hl, hm⟩
  rcases doiMatchAt_some l m hm with ⟨_, _, _, _, _, _, _, _, hpre⟩
  exact hl.subset (hpre.subset hc)

theorem doiMatchAt_self (D T : List Char) (hD : ∀ c ∈ D, c.isDigit = true)
    (h4 : 4 ≤ D.length) (h9 : D.length ≤ 9) (hT : T ≠ [])
    (hTs : ∀ c ∈ T, isPySpace c = false) :
    doiMatchAt ('1' :: '0' :: '.' :: (D ++ '/' :: T)) =
      some ('1' :: '0' :: '.' :: (D ++ '/' :: T)) := by
  have hsl : Char.isDigit '/' = false := by decide
  have htw : (D ++ '/' :: T).takeWhile Char.isDigit = D :=
    takeWhile_append_stop _ D '/' T hD hsl
  have hdw : (D ++ '/' :: T).dropWhile Char.isDigit = '/' :: T :=
    dropWhile_append_stop _ D '/' T hD hsl
  have hrun : T.takeWhile (fun c => !(isPySpace c)) = T :=
    takeWhile_eq_self_of _ T (fun c hc => by simp [hTs c hc])
  unfold doiMatchAt
  simp only [htw, hdw, hrun]
  rw [if_pos ⟨h4, h9, hT⟩]

theorem doiSearch_self (D T : List Char) (hD : ∀ c ∈ D, c.isDigit = true)
    (h4 : 4 ≤ D.length) (h9 : D.length ≤ 9) (hT : T ≠ [])
    (hTs : ∀ c ∈ T, isPySpace c = false) :
    doiSearch ('1' :: '0' :: '.' :: (D ++ '/' :: T)) =
      some ('1' :: '0' :: '.' :: (D ++ '/' :: T)) := by
  rw [doiSearch]
  rw [doiMatchAt_self D T hD h4 h9 hT hTs]

theorem norm_doi_chars_lower (x : List Char) (c : Char)
    (hc : c ∈ stripDots (stripWs (removeAll (pys "http://doi.org/")
      (removeAll (pys "https://doi.org/") (pyLower (stripWs x)))))) :
    pyToLower c = c := by
  have hm1 := (stripP_sublist _ _).subset hc
  have hm2 := (stripP_sublist _ _).subset hm1
  have hm3 := mem_of_mem_removeAll _ _ _ hm2
  have hm4 := mem_of_mem_removeAll _ _ _ hm3
  rcases List.mem_map.mp hm4 with ⟨c2, _, hc2⟩
  rw [← hc2]
  exact pyToLower_idem c2

theorem norm_doi_fixed (D T : List Char) (hD : ∀ c ∈ D, c.isDigit = true)
    (hD4 : 4 ≤ D.length) (hD9 : D.length ≤ 9) (hTne : T ≠ [])
    (hTs : ∀ c ∈ T, isPySpace c = false)
    (hTlast : ∀ c, T.getLast? = some c → isPunc c = false)
    (hlow : ∀ c ∈ '1' :: '0' :: '.' :: (D ++ '/' :: T), pyToLower c = c)
    (hc2 : containsSub (pys "https://doi.org/") ('1' :: '0' :: '.' :: (D ++ '/' :: T)) = false)
    (hc3 : containsSub (pys "http://doi.org/") ('1' :: '0' :: '.' :: (D ++ '/' :: T)) = false) :
    norm_doi ('1' :: '0' :: '.' :: (D ++ '/' :: T)) = '1' :: '0' :: '.' :: (D ++ '/' :: T) := by
  have hform : '1' :: '0' :: '.' :: (D ++ '/' :: T) =
      ('1' :: '0' :: '.' :: (D ++ ['/'])) ++ T := by
    simp
  have hlast : ∀ c : Char, ('1' :: '0' :: '.' :: (D ++ '/' :: T)).getLast? = some c →
      c ∈ T ∧ isPunc c = false := by
    intro c hc
    rw [hform, List.getLast?_append_of_ne_nil _ hTne] at hc
    exact ⟨List.mem_of_mem_getLast? hc, hTlast c hc⟩
  have hstrip : stripWs ('1' :: '0' :: '.' :: (D ++ '/' :: T)) =
      '1' :: '0' :: '.' :: (D ++ '/' :: T) := by
    apply stripP_eq_self
    · intro c hc
      simp only [List.head?_cons, Option.some.injEq] at hc
      rw [← hc]
      decide
    · intro c hc
      rcases hlast c hc with ⟨hmem, _⟩
      exact hTs c hmem
  have hlow2 : pyLower ('1' :: '0' :: '.' :: (D ++ '/' :: T)) =
      '1' :: '0' :: '.' :: (D ++ '/' :: T) := pyLower_eq_self _ hlow
  have hrem1 : removeAll (pys "https://doi.org/") ('1' :: '0' :: '.' :: (D ++ '/' :: T)) =
      '1' :: '0' :: '.' :: (D ++ '/' :: T) := removeAll_eq_of_not_contains _ _ hc2
  have hrem2 : removeAll (pys "http://doi.org/") ('1' :: '0' :: '.' :: (D ++ '/' :: T)) =
      '1' :: '0' :: '.' :: (D ++ '/' :: T) := removeAll_eq_of_not_contains _ _ hc3
  have hdots : stripDots ('1' :: '0' :: '.' :: (D ++ '/' :: T)) =
      '1' :: '0' :: '.' :: (D ++ '/' :: T) := by
    apply stripP_eq_self
    · intro c hc
      simp only [List.head?_cons, Option.some.injEq] at hc
      rw [← hc]
      decide
    · intro c hc
      rcases hlast c hc with ⟨_, hpunc⟩
      simp only [isPunc, Bool.or_eq_false_iff] at hpunc
      simpa using hpunc.1.1.1
  have hsearch : doiSearch ('1' :: '0' :: '.' :: (D ++ '/' :: T)) =
      some ('1' :: '0' :: '.' :: (D ++ '/' :: T)) :=
    doiSearch_self D T hD hD4 hD9 hTne hTs
  have hrstrip : rstripPunc ('1' :: '0' :: '.' :: (D ++ '/' :: T)) =
      '1' :: '0' :: '.' :: (D ++ '/' :: T) := by
    apply rstripP_eq_self
    intro c hc
    exact (hlast c hc).2
  simp only [norm_doi]
  rw [hstrip, hlow2, hrem1, hrem2, hstrip, hdots, hsearch]
  exact hrstrip

/-- C7 amended: `norm_doi` is idempotent on every input whose normal form
does not end in a slash and does not contain a `doi.org` URL prefix as a
substring (the normal form of such an input is itself a full match of the
DOI pattern, or empty). -/
theorem C7_amended (x : List Char)
    (h1 : (norm_doi x).getLast? ≠ some '/')
    (h2 : containsSub (pys "https://doi.org/") (norm_doi x) = false)
    (h3 : containsSub (pys "http://doi.org/") (norm_doi x) = false) :
    norm_doi (norm_doi x) = norm_doi x := by
  by_cases hy0 : norm_doi x = []
  · rw [hy0]
    rfl
  · cases hds : doiSearch (stripDots (stripWs (removeAll (pys "http://doi.org/")
        (removeAll (pys "https://doi.org/") (pyLower (stripWs x)))))) with
    | none =>
      exfalso
      apply hy0
      simp only [norm_doi]
      rw [hds]
    | some m =>
      have hnx : norm_doi x = rstripPunc m := by
        simp only [norm_doi]
        rw [hds]
      rcases doiSearch_some _ _ hds with ⟨lm, _, hmm⟩
      rcases doiMatchAt_some _ _ hmm with ⟨D, T, hm, hD, hD4, hD9, hTne, hTs, _⟩
      have hmlow : ∀ c ∈ m, pyToLower c = c := fun c hc =>
        norm_doi_chars_lower x c (mem_of_doiSearch _ _ hds c hc)
      have ha : m = ('1' :: '0' :: '.' :: (D ++ ['/'])) ++ T := by
        rw [hm]
        simp
      have hsplit : rstripPunc m =
          if rstripP isPunc T = [] then rstripP isPunc ('1' :: '0' :: '.' :: (D ++ ['/']))
          else ('1' :: '0' :: '.' :: (D ++ ['/'])) ++ rstripP isPunc T := by
        rw [ha]
        exact rstripP_append isPunc _ T
      by_cases hTE : rstripP isPunc T = []
      · exfalso
        apply h1
        rw [hnx, hsplit, if_pos hTE]
        have ha2 : ('1' :: '0' :: '.' :: (D ++ ['/'])) =
            ('1' :: '0' :: '.' :: D) ++ ['/'] := by
          simp
        rw [ha2, rstripP_append isPunc _ ['/']]
        rw [if_neg (by decide)]
        have hsl : rstripP isPunc ['/'] = ['/'] := by decide
        rw [hsl, List.getLast?_concat]
      · have hy : norm_doi x = '1' :: '0' :: '.' :: (D ++ '/' :: rstripP isPunc T) := by
          rw [hnx, hsplit, if_neg hTE]
          simp
        have hTsub : ∀ c ∈ rstripP isPunc T, c ∈ T := fun c hc =>
          (rstripP_sublist isPunc T).subset hc
        have hTs2 : ∀ c ∈ rstripP isPunc T, isPySpace c = false := fun c hc =>
          hTs c (hTsub c hc)
        have hylow : ∀ c ∈ '1' :: '0' :: '.' :: (D ++ '/' :: rstripP isPunc T),
            pyToLower c = c := by
          intro c hc
          apply hmlow
          rw [← hy, hnx] at hc
          exact (rstripP_sublist isPunc m).subset hc
        rw [hy] at h2 h3 ⊢
        exact norm_doi_fixed D (rstripP isPunc T) hD hD4 hD9 hTE hTs2
          (fun c hc => rstripP_getLast isPunc T c hc) hylow h2 h3

/-- C7 witness: the amended idempotence applied at
`"https://doi.org/10.1016/j.example.2020.01.001."`, whose normal form
`"10.1016/j.example.2020.01.001"` satisfies all three side conditions. -/
theorem C7_witness :
    norm_doi (norm_doi (pys "https://doi.org/10.1016/j.example.2020.01.001."))
      = norm_doi (pys "https://doi.org/10.1016/j.example.2020.01.001.") :=
  C7_amended _ (by decide) (by decide) (by decide)

theorem pyLeB_cons_iff (a b : Char) (as bs : List Char) :
    pyLeB (a :: as) (b :: bs) = true ↔ (a < b ∨ (a = b ∧ pyLeB as bs = true)) := by
  simp only [pyLeB]
  by_cases h1 : a < b
  · simp [h1]
  · by_cases h2 : a = b
    · simp [h1, h2]
    · simp [h1, h2]

theorem pyLeB_total (a b : List Char) : pyLeB a b = true ∨ pyLeB b a = true := by
  induction a generalizing b with
  | nil => exact Or.inl rfl
  | cons c cs ih =>
    cases b with
    | nil => exact Or.inr rfl
    | cons d ds =>
      rcases lt_trichotomy c d with h | h | h
      · exact Or.inl ((pyLeB_cons_iff c d cs ds).mpr (Or.inl h))
      · subst h
        rcases ih ds with h2 | h2
        · exact Or.inl ((pyLeB_cons_iff c c cs ds).mpr (Or.inr ⟨rfl, h2⟩))
        · exact Or.inr ((pyLeB_cons_iff c c ds cs).mpr (Or.inr ⟨rfl, h2⟩))
      · exact Or.inr ((pyLeB_cons_iff d c ds cs).mpr (Or.inl h))

theorem pyLeB_trans (a b c : List Char) (h1 : pyLeB a b = true) (h2 : pyLeB b c = true) :
    pyLeB a c = true := by
  induction a generalizing b c with
  | nil => rfl
  | cons x xs ih =>
    cases b with
    | nil => simp [pyLeB] at h1
    | cons y ys =>
      cases c with
      | nil => simp [pyLeB] at h2
      | cons z zs =>
        rw [pyLeB_cons_iff] at h1 h2 ⊢
        rcases h1 with hxy | ⟨hxy, h1s⟩
        · rcases h2 with hyz | ⟨hyz, h2s⟩
          · exact Or.inl (lt_trans hxy hyz)
          · exact Or.inl (hyz ▸ hxy)
        · subst hxy
          rcases h2 with hyz | ⟨hyz, h2s⟩
          · exact Or.inl hyz
          · exact Or.inr ⟨hyz, ih ys zs h1s h2s⟩

theorem pyLeB_antisymm (a b : List Char) (h1 : pyLeB a b = true) (h2 : pyLeB b a = true) :
    a = b := by
  induction a generalizing b with
  | nil =>
    cases b with
    | nil => rfl
    | cons d ds => simp [pyLeB] at h2
  | cons c cs ih =>
    cases b with
    | nil => simp [pyLeB] at h1
    | cons d ds =>
      rw [pyLeB_cons_iff] at h1 h2
      rcases h1 with hcd | ⟨hcd, h1s⟩
      · rcases h2 with hdc | ⟨hdc, h2s⟩
        · exact absurd (lt_trans hcd hdc) (lt_irrefl c)
        · exact absurd hcd (by rw [hdc]; exact lt_irrefl c)
      · subst hcd
        rcases h2 with hdc | ⟨_, h2s⟩
        · exact absurd hdc (lt_irrefl c)
        · rw [ih ds h1s h2s]

theorem mem_sortedSet (l : List (List Char)) (a : List Char) :
    a ∈ sortedSet l ↔ a ∈ l := by
  unfold sortedSet
  rw [(List.perm_insertionSort pyle _).mem_iff]
  unfold dedupFirst
  rw [mem_dedupSeen]
  simp

theorem sortedSet_nodup (l : List (List Char)) : (sortedSet l).Nodup :=
  ((List.perm_insertionSort pyle _).nodup_iff).mpr (dedupSeen_nodup [] l)

theorem sortedSet_sorted (l : List (List Char)) : List.Sorted pyle (sortedSet l) :=
  @List.sorted_insertionSort _ pyle _ ⟨pyLeB_total⟩ ⟨pyLeB_trans⟩ _

theorem sortedSet_congr (l₁ l₂ : List (List Char)) (h : ∀ a, a ∈ l₁ ↔ a ∈ l₂) :
    sortedSet l₁ = sortedSet l₂ := by
  refine @List.eq_of_perm_of_sorted _ pyle ⟨pyLeB_antisymm⟩ _ _ ?_
    (sortedSet_sorted l₁) (sortedSet_sorted l₂)
  refine (List.perm_ext_iff_of_nodup (sortedSet_nodup l₁) (sortedSet_nodup l₂)).mpr ?_
  intro a
  rw [mem_sortedSet, mem_sortedSet]
  exact h a

theorem fin3_cases (i : Fin 3) : i = 0 ∨ i = 1 ∨ i = 2 := by
  fin_cases i
  · exact Or.inl rfl
  · exact Or.inr (Or.inl rfl)
  · exact Or.inr (Or.inr rfl)

theorem standardize_querySet (f : Frame) (l : List Char) (r : StdRecord)
    (h : r ∈ standardize f l) : r.QuerySet = l := by
  simp only [standardize, List.mem_map] at h
  rcases h with ⟨i, _, hr⟩
  rw [← hr]

theorem standardize_keys (f : Frame) (l : List Char) :
    (standardize f l).map StdRecord.key = frameKeys f := by
  unfold frameKeys
  simp only [standardize, List.map_map]
  rfl

theorem mergedOf_keys (rs : List StdRecord) :
    (mergedOf rs).map MergedRecord.key = dedupFirst (rs.map StdRecord.key) := by
  unfold mergedOf
  rw [List.map_map]
  have h : (MergedRecord.key ∘ fun k => MergedRecord.mk
      (pick_rep (groupOf rs k) emptyStd).Title
      (pick_rep (groupOf rs k) emptyStd).Authors
      (pick_rep (groupOf rs k) emptyStd).Year
      (pick_rep (groupOf rs k) emptyStd).DOI
      (pick_rep (groupOf rs k) emptyStd).URL
      (querySetsOf rs k) k) = id := rfl
  rw [h, List.map_id]

theorem mergedOf_querySets (rs : List StdRecord) (m : MergedRecord) (hm : m ∈ mergedOf rs) :
    m.QuerySets = querySetsOf rs m.key := by
  unfold mergedOf at hm
  rcases List.mem_map.mp hm with ⟨k, _, hmk⟩
  rw [← hmk]

theorem mem_labels (rs : List StdRecord) (k a : List Char) :
    a ∈ (groupOf rs k).map StdRecord.QuerySet ↔
      ∃ r ∈ rs, r.key = k ∧ r.QuerySet = a := by
  unfold groupOf
  constructor
  · intro h
    rcases List.mem_map.mp h with ⟨r, hr, hq⟩
    have hf := List.mem_filter.mp hr
    refine ⟨r, hf.1, ?_, hq⟩
    simpa using hf.2
  · rintro ⟨r, hr, hk, hq⟩
    exact List.mem_map.mpr ⟨r, List.mem_filter.mpr ⟨hr, by simp [hk]⟩, hq⟩

theorem mem_assemble_keys (F : Fin 3 → Frame) (k : List Char) :
    k ∈ (assemble F).map StdRecord.key ↔ ∃ i : Fin 3, k ∈ frameKeys (F i) := by
  unfold assemble all_df
  rw [List.map_append, List.map_append, List.mem_append, List.mem_append]
  rw [standardize_keys, standardize_keys, standardize_keys]
  constructor
  · rintro ((h | h) | h)
    exacts [⟨0, h⟩, ⟨1, h⟩, ⟨2, h⟩]
  · rintro ⟨i, h⟩
    rcases fin3_cases i with rfl | rfl | rfl
    · exact Or.inl (Or.inl h)
    · exact Or.inl (Or.inr h)
    · exact Or.inr h

theorem mem_labels_assemble (F : Fin 3 → Frame) (k a : List Char) :
    a ∈ (groupOf (assemble F) k).map StdRecord.QuerySet ↔
      ∃ i : Fin 3, a = slotLabel i ∧ k ∈ frameKeys (F i) := by
  rw [mem_labels]
  constructor
  · rintro ⟨r, hr, hkey, hqs⟩
    unfold assemble all_df at hr
    have hcase : ∃ i : Fin 3, r ∈ standardize (F i) (slotLabel i) := by
      rcases List.mem_append.mp hr with h | h
      · rcases List.mem_append.mp h with h2 | h2
        · exact ⟨0, h2⟩
        · exact ⟨1, h2⟩
      · exact ⟨2, h⟩
    rcases hcase with ⟨i, hi⟩
    refine ⟨i, ?_, ?_⟩
    · rw [← hqs]
      rw [standardize_querySet (F i) (slotLabel i) r hi]
    · rw [← standardize_keys (F i) (slotLabel i), ← hkey]
      exact List.mem_map_of_mem _ hi
  · rintro ⟨i, rfl, hk⟩
    rw [← standardize_keys (F i) (slotLabel i)] at hk
    rcases List.mem_map.mp hk with ⟨r, hr, hrk⟩
    refine ⟨r, ?_, hrk, standardize_querySet (F i) (slotLabel i) r hr⟩
    unfold assemble all_df
    rcases fin3_cases i with rfl | rfl | rfl
    · exact List.mem_append.mpr (Or.inl (List.mem_append.mpr (Or.inl hr)))
    · exact List.mem_append.mpr (Or.inl (List.mem_append.mpr (Or.inr hr)))
    · exact List.mem_append.mpr (Or.inr hr)

theorem relabel_slotLabel (q : Fin 3 → Fin 3) (j : Fin 3) :
    relabelStr q (slotLabel j) = slotLabel (q j) := by
  rcases fin3_cases j with rfl | rfl | rfl
  · unfold relabelStr
    rw [if_pos rfl]
  · unfold relabelStr
    rw [if_neg (by decide), if_pos rfl]
  · unfold relabelStr
    rw [if_neg (by decide), if_neg (by decide), if_pos rfl]

theorem labels_perm (F : Fin 3 → Frame) (p q : Fin 3 → Fin 3)
    (hqp : ∀ i, q (p i) = i) (hpq : ∀ i, p (q i) = i) (k a : List Char) :
    a ∈ (groupOf (assemble (fun i => F (p i))) k).map StdRecord.QuerySet ↔
      a ∈ ((groupOf (assemble F) k).map StdRecord.QuerySet).map (relabelStr q) := by
  rw [mem_labels_assemble]
  constructor
  · rintro ⟨i, rfl, hk⟩
    refine List.mem_map.mpr ⟨slotLabel (p i), ?_, ?_⟩
    · exact (mem_labels_assemble F k (slotLabel (p i))).mpr ⟨p i, rfl, hk⟩
    · rw [relabel_slotLabel, hqp]
  · intro h
    rcases List.mem_map.mp h with ⟨b, hb, hba⟩
    rcases (mem_labels_assemble F k b).mp hb with ⟨j, rfl, hk⟩
    refine ⟨q j, ?_, ?_⟩
    · rw [← hba, relabel_slotLabel]
    · rw [hpq]
      exact hk

/-- C9: permuting the three input collections among the A/B/C slots yields
the same set of merged keys, and, per key, the provenance string of the
permuted run is the sorted pipe-join of the relabeled label set of the
original run; each output's QuerySets string is the provenance of its key. -/
theorem C9_commutative (F : Fin 3 → Frame) (p q : Fin 3 → Fin 3)
    (hqp : ∀ i, q (p i) = i) (hpq : ∀ i, p (q i) = i) :
    (∀ k, k ∈ (make_abc (F (p 0)) (F (p 1)) (F (p 2))).map MergedRecord.key ↔
          k ∈ (make_abc (F 0) (F 1) (F 2)).map MergedRecord.key) ∧
    (∀ k, querySetsOf (assemble (fun i => F (p i))) k =
          joinSep (pys "|") (sortedSet
            (((groupOf (assemble F) k).map StdRecord.QuerySet).map (relabelStr q)))) ∧
    (∀ m ∈ make_abc (F (p 0)) (F (p 1)) (F (p 2)),
        m.QuerySets = querySetsOf (assemble (fun i => F (p i))) m.key) ∧
    (∀ m ∈ make_abc (F 0) (F 1) (F 2), m.QuerySets = querySetsOf (assemble F) m.key) := by
  have hmk1 : make_abc (F (p 0)) (F (p 1)) (F (p 2)) =
      mergedOf (assemble (fun i => F (p i))) := rfl
  have hmk2 : make_abc (F 0) (F 1) (F 2) = mergedOf (assemble F) := rfl
  refine ⟨?_, ?_, ?_, ?_⟩
  · intro k
    rw [hmk1, hmk2, mergedOf_keys, mergedOf_keys]
    unfold dedupFirst
    rw [mem_dedupSeen, mem_dedupSeen]
    simp only [List.not_mem_nil, not_false_eq_true, and_true]
    rw [mem_assemble_keys (fun i => F (p i)), mem_assemble_keys F]
    constructor
    · rintro ⟨i, h⟩
      exact ⟨p i, h⟩
    · rintro ⟨j, h⟩
      refine ⟨q j, ?_⟩
      rw [hpq]
      exact h
  · intro k
    unfold querySetsOf
    congr 1
    exact sortedSet_congr _ _ (labels_perm F p q hqp hpq k)
  · intro m hm
    rw [hmk1] at hm
    exact mergedOf_querySets _ m hm
  · intro m hm
    rw [hmk2] at hm
    exact mergedOf_querySets _ m hm

/-- C9 witness: the commutativity statement instantiated at the example
slot assignment and the transposition of slots A and B, extracting the
key-set equivalence at the key `"foo"` and the relabeled provenance at the
same key. -/
theorem C9_witness :
    ((pys "foo") ∈ (make_abc (F3ex (swap01 0)) (F3ex (swap01 1))
        (F3ex (swap01 2))).map MergedRecord.key ↔
      (pys "foo") ∈ (make_abc (F3ex 0) (F3ex 1) (F3ex 2)).map MergedRecord.key) ∧
    querySetsOf (assemble (fun i => F3ex (swap01 i))) (pys "foo") =
      joinSep (pys "|") (sortedSet
        (((groupOf (assemble F3ex) (pys "foo")).map StdRecord.QuerySet).map
          (relabelStr swap01))) :=
  ⟨(C9_commutative F3ex swap01 swap01 (by decide) (by decide)).1 (pys "foo"),
   (C9_commutative F3ex swap01 swap01 (by decide) (by decide)).2.1 (pys "foo")⟩
